import Mathlib

set_option maxHeartbeats 1000000
set_option maxRecDepth 4000

namespace WikiQuiz

/-- JavaScript strings are modelled as lists of characters, one `Char` per
UTF-16 code unit of the original string.  All length and slicing operations
of the source ( `.length`, `.slice`, `.trim`, `.endsWith`) are read under
this identification. -/
abbrev Str := List Char

/-- The backtick character, written through its code point so that the
development stays free of stray quoting characters. -/
def btick : Char := '\x60'

/-- Character class removed by JavaScript `String.prototype.trim` (the
common members of the WhiteSpace and LineTerminator productions). -/
def isTrimWs (c : Char) : Bool :=
  c = ' ' || c = '\t' || c = '\n' || c = '\r' || c = '\x0b' || c = '\x0c' ||
  c = Char.ofNat 160

/-- Model of `s.trim()`: drop trim-whitespace from both ends. -/
def jsTrim (s : Str) : Str :=
  ((s.dropWhile isTrimWs).reverse.dropWhile isTrimWs).reverse

/-- Model of JavaScript string truthiness for the filter predicate: a string
is truthy exactly when it is nonempty. -/
def jsTruthy (s : Str) : Bool := !s.isEmpty

/-- Model of `fetch` `Response.ok`: status in the 200-299 range. -/
def respOk (status : Nat) : Bool := 200 ≤ status && status ≤ 299

/-! ## Extractor (index.ts lines 52-75)

The DOM produced by `DOMParser` is modelled only as far as the extractor
inspects it: the text content of the `#firstHeading` element when that
element is present, and the list of the text contents of the `<p>` nodes
inside `#mw-content-text .mw-parser-output` when that container is present
(`none` entries model paragraph nodes whose `textContent` is absent, which
the source guards with `?.`). -/

structure Doc where
  firstHeading : Option Str
  contentDiv : Option (List (Option Str))

/-- Line 58: `doc.querySelector('#firstHeading')?.textContent?.trim() ||
'Unknown Article'`.  An absent element, or a title that trims to the empty
(falsy) string, falls back to the default. -/
def titleOf (d : Doc) : Str :=
  match d.firstHeading with
  | none => ("Unknown Article").data
  | some t => if jsTrim t = [] then ("Unknown Article").data else jsTrim t

/-- Line 69 filter predicate: `text => text && text.length > 50` applied to
the (optionally absent) trimmed text. -/
def keepPara : Option Str → Bool
  | none => false
  | some t => jsTruthy t && decide (t.length > 50)

/-- Lines 67-69: map `textContent?.trim()` over the paragraph nodes, then
filter by the truthiness-and-length predicate. -/
def paragraphs (ps : List (Option Str)) : List (Option Str) :=
  (ps.map (fun p => p.map jsTrim)).filter keepPara

/-- The blank-line separator of `paragraphs.join('\n\n')`. -/
def nlnl : Str := '\n' :: '\n' :: []

/-- Line 71, first half: `paragraphs.join('\n\n')`. -/
def joinedParagraphs (ps : List (Option Str)) : Str :=
  List.intercalate nlnl ((paragraphs ps).map (fun o => o.getD []))

/-- Line 71: `paragraphs.join('\n\n').slice(0, 15000)`. -/
def articleTextOf (ps : List (Option Str)) : Str :=
  (joinedParagraphs ps).take 15000

/-! ## Response parser, fence location (index.ts lines 172-183)

`generatedContent.match(/(three backticks)json\n([^]*?)\n(three backticks)/)`
is modelled by `fenceMatch`: a regular-expression match is found at the
leftmost position where the literal opener occurs and some occurrence of the
literal closer follows it; the lazy group captures up to the first such
closer.  If the first occurrence of the opener has no closer after it then
no later occurrence has one either, so the whole match fails; `fenceMatch`
therefore only inspects the first occurrence of the opener. -/

/-- Index of the first occurrence of `pat` in `s` (the leftmost `i` with
`pat` a prefix of `s.drop i`). -/
def findSub (pat : Str) : Str → Option Nat
  | [] => if pat.isPrefixOf ([] : Str) then some 0 else none
  | c :: rest =>
    if pat.isPrefixOf (c :: rest) then some 0
    else (findSub pat rest).map (· + 1)

/-- The closing delimiter `"\n" ++ three backticks` common to both fence
patterns. -/
def closeFence : Str := ("\n```").data

/-- Opener of the first regex on line 175. -/
def jsonFenceOpen : Str := ("```json\n").data

/-- Opener of the second regex on line 176. -/
def plainFenceOpen : Str := ("```\n").data

/-- Capture group of `content.match(/opener([^]*?)\n(backticks)/)`. -/
def fenceMatch (opn s : Str) : Option Str :=
  match findSub opn s with
  | none => none
  | some i =>
    match findSub closeFence (s.drop (i + opn.length)) with
    | none => none
    | some j => some ((s.drop (i + opn.length)).take j)

/-- Lines 175-176: `match(json fence) || match(plain fence)`, keeping the
capture group. -/
def fencedInner (content : Str) : Option Str :=
  match fenceMatch jsonFenceOpen content with
  | some c => some c
  | none => fenceMatch plainFenceOpen content

/-- Line 178: `jsonMatch ? jsonMatch[1] : generatedContent`. -/
def jsonTextOf (content : Str) : Str := (fencedInner content).getD content

/-! ## Model of `JSON.parse` (index.ts line 179)

A value-producing recursive-descent parser for the JSON grammar, the
semantics of the platform's `JSON.parse`: optional insignificant whitespace
(space, tab, line feed, carriage return) around tokens, `null` / `true` /
`false`, numbers, strings with escapes and no unescaped control characters,
arrays, and objects in which a duplicated key keeps its first position but
takes its last value.  Recursion is bounded by an explicit fuel argument;
the top-level entry point supplies more fuel than any input can consume. -/

inductive JsonV where
  | jnull : JsonV
  | jbool : Bool → JsonV
  | jnum : Str → JsonV
  | jstr : Str → JsonV
  | jarr : List JsonV → JsonV
  | jobj : List (Str × JsonV) → JsonV

/-- JSON insignificant whitespace. -/
def isJsonWs (c : Char) : Bool := c = ' ' || c = '\t' || c = '\n' || c = '\r'

/-- Skip insignificant whitespace. -/
def skipWs (s : Str) : Str := s.dropWhile isJsonWs

/-- Single-character string escapes. -/
def escChar (e : Char) : Option Char :=
  if e = '"' then some '"'
  else if e = '\\' then some '\\'
  else if e = '/' then some '/'
  else if e = 'b' then some (Char.ofNat 8)
  else if e = 'f' then some (Char.ofNat 12)
  else if e = 'n' then some '\n'
  else if e = 'r' then some '\r'
  else if e = 't' then some '\t'
  else none

def isHexDig (c : Char) : Bool :=
  c.isDigit || (('a' ≤ c) && (c ≤ 'f')) || (('A' ≤ c) && (c ≤ 'F'))

def hexVal (c : Char) : Nat :=
  if c.isDigit then c.toNat - 48
  else if 'a' ≤ c then c.toNat - 87
  else c.toNat - 55

/-- Body of a string literal, to be entered after the opening quote: returns
the decoded content and the remainder after the closing quote.  Unescaped
control characters (below U+0020) are rejected, as `JSON.parse` does. -/
def parseStrBody : Nat → Str → Option (Str × Str)
  | 0, _ => none
  | fuel+1, s =>
    match s with
    | [] => none
    | c :: cs =>
    if c = '"' then some ([], cs)
    else if c = '\\' then
      match cs with
      | [] => none
      | e :: cs1 =>
        match escChar e with
        | some d => (parseStrBody fuel cs1).map (fun p => (d :: p.1, p.2))
        | none =>
          if e = 'u' then
            match cs1 with
            | h1 :: h2 :: h3 :: h4 :: cs2 =>
              if isHexDig h1 && isHexDig h2 && isHexDig h3 && isHexDig h4 then
                (parseStrBody fuel cs2).map
                  (fun p =>
                    (Char.ofNat
                        (((hexVal h1 * 16 + hexVal h2) * 16 + hexVal h3) * 16
                          + hexVal h4) :: p.1, p.2))
              else none
            | _ => none
          else none
    else if c.toNat < 32 then none
    else (parseStrBody fuel cs).map (fun p => (c :: p.1, p.2))

/-- Number grammar: `-? (0 | [1-9][0-9]*) (. [0-9]+)? ([eE][+-]?[0-9]+)?`.
The returned lexeme is exactly the consumed text. -/
def parseFracPart (s : Str) : Option (Str × Str) :=
  match s with
  | '.' :: r =>
    if (r.takeWhile Char.isDigit).isEmpty then none
    else some ('.' :: r.takeWhile Char.isDigit, r.dropWhile Char.isDigit)
  | _ => some ([], s)

def parseSign (r : Str) : Str × Str :=
  match r with
  | '+' :: r2 => (['+'], r2)
  | '-' :: r2 => (['-'], r2)
  | _ => ([], r)

def parseExpPart (s : Str) : Option (Str × Str) :=
  match s with
  | c :: r =>
    if c = 'e' || c = 'E' then
      if ((parseSign r).2.takeWhile Char.isDigit).isEmpty then none
      else
        some (c :: ((parseSign r).1 ++ (parseSign r).2.takeWhile Char.isDigit),
              (parseSign r).2.dropWhile Char.isDigit)
    else some ([], s)
  | [] => some ([], [])

def parseNumTail (intPart s : Str) : Option (Str × Str) :=
  match parseFracPart s with
  | none => none
  | some (frac, s1) =>
    match parseExpPart s1 with
    | none => none
    | some (ep, s2) => some (intPart ++ frac ++ ep, s2)

def parseNumber (s : Str) : Option (Str × Str) :=
  match s with
  | [] => none
  | c :: r =>
    if c = '-' then
      match r with
      | [] => none
      | c2 :: r2 =>
        if c2 = '0' then parseNumTail ['-', '0'] r2
        else if c2.isDigit then
          parseNumTail ('-' :: c2 :: r2.takeWhile Char.isDigit)
            (r2.dropWhile Char.isDigit)
        else none
    else if c = '0' then parseNumTail (['0']) r
    else if c.isDigit then
      parseNumTail (c :: r.takeWhile Char.isDigit) (r.dropWhile Char.isDigit)
    else none

/-- `true` / `false` / `null` keywords. -/
def parseLit (lit : Str) (v : JsonV) (s : Str) : Option (JsonV × Str) :=
  if lit.isPrefixOf s then some (v, s.drop lit.length) else none

/-- Object member insertion: a duplicated key keeps its original position
and takes the later value, as repeated property assignment does. -/
def insertField (fs : List (Str × JsonV)) (k : Str) (v : JsonV) :
    List (Str × JsonV) :=
  match fs with
  | [] => [(k, v)]
  | (k0, v0) :: rest =>
    if k0 = k then (k0, v) :: rest else (k0, v0) :: insertField rest k v

/-- Property read on a parsed object (keys are unique by construction). -/
def getField (fs : List (Str × JsonV)) (k : Str) : Option JsonV :=
  match fs with
  | [] => none
  | (k0, v0) :: rest => if k0 = k then some v0 else getField rest k

mutual

/-- One JSON value, starting at a non-whitespace position; returns the value
and the unconsumed remainder. -/
def parseVal : Nat → Str → Option (JsonV × Str)
  | 0, _ => none
  | fuel+1, s =>
    match s with
    | [] => none
    | c :: cs =>
      if c = '"' then
        (parseStrBody fuel cs).map (fun p => (JsonV.jstr p.1, p.2))
      else if c = '\x7b' then
        match skipWs cs with
        | '\x7d' :: r => some (JsonV.jobj [], r)
        | s1 => parseMembers fuel s1 []
      else if c = '[' then
        match skipWs cs with
        | ']' :: r => some (JsonV.jarr [], r)
        | s1 => parseElems fuel s1 []
      else if c = 't' then parseLit (("true").data) (JsonV.jbool true) s
      else if c = 'f' then parseLit (("false").data) (JsonV.jbool false) s
      else if c = 'n' then parseLit (("null").data) JsonV.jnull s
      else
        match parseNumber s with
        | some (lex, rest) => some (JsonV.jnum lex, rest)
        | none => none

/-- Object members, starting at the (whitespace-skipped) position of a key. -/
def parseMembers : Nat → Str → List (Str × JsonV) → Option (JsonV × Str)
  | 0, _, _ => none
  | fuel+1, s, acc =>
    match s with
    | '"' :: cs =>
      (match parseStrBody fuel cs with
       | none => none
       | some (key, r1) =>
         match skipWs r1 with
         | ':' :: r2 =>
           (match parseVal fuel (skipWs r2) with
            | none => none
            | some (v, r3) =>
              match skipWs r3 with
              | ',' :: r4 => parseMembers fuel (skipWs r4) (insertField acc key v)
              | '\x7d' :: r4 => some (JsonV.jobj (insertField acc key v), r4)
              | _ => none)
         | _ => none)
    | _ => none

/-- Array elements, starting at the (whitespace-skipped) position of an
element. -/
def parseElems : Nat → Str → List JsonV → Option (JsonV × Str)
  | 0, _, _ => none
  | fuel+1, s, acc =>
    match parseVal fuel s with
    | none => none
    | some (v, r1) =>
      match skipWs r1 with
      | ',' :: r2 => parseElems fuel (skipWs r2) (acc ++ [v])
      | ']' :: r2 => some (JsonV.jarr (acc ++ [v]), r2)
      | _ => none

end

/-- Model of `JSON.parse`: a single value surrounded by optional
insignificant whitespace.  The fuel bound exceeds what any input can
consume (each parsing step either consumes a character or is charged to an
enclosing step that did). -/
def jsonParse (s : Str) : Option JsonV :=
  match parseVal (2 * s.length + 4) (skipWs s) with
  | some (v, rest) => if rest.all isJsonWs then some v else none
  | none => none

/-! ## The request handler (index.ts lines 9-204)

The handler is a single linear pipeline.  Its interactions with the outside
world are modelled by an environment of oracle values: the result of
`new URL(wikipediaUrl)`, the Wikipedia fetch outcome, the `DOMParser`
result, the presence of the `LOVABLE_API_KEY` configuration value, and the
completion-service response (status plus `choices[0].message.content`).
The handler returns its HTTP response together with the list of network
requests it issued, in order. -/

/-- The fields of a parsed `URL` object inspected by the handler.  As in the
platform object, `protocol` carries the trailing colon. -/
structure ParsedURL where
  protocol : Str
  hostname : Str

/-- Lines 27-28 acceptance condition: hostname ends with `.wikipedia.org`
and the scheme is http or https. -/
def validWikiUrl (p : ParsedURL) : Bool :=
  ((".wikipedia.org").data.isSuffixOf p.hostname) &&
  (p.protocol = ("http:").data || p.protocol = ("https:").data)

structure Env where
  urlParse : Option ParsedURL
  wikiOk : Bool
  domDoc : Option Doc
  hasApiKey : Bool
  aiStatus : Nat
  aiContent : Str

/-- A response body: empty, the single-field `\x7b error: msg \x7d` JSON
object, or a structured quiz payload. -/
inductive RespBody where
  | empty : RespBody
  | errMsg : String → RespBody
  | json : JsonV → RespBody

structure HResponse where
  status : Nat
  body : RespBody

/-- The system instruction of lines 85-124, verbatim. -/
def systemPrompt : String :=
  "You are an AI model trained to convert Wikipedia article text into structured educational content.\n\nYour task:\n1. Summarize the article (80–120 words)\n2. Identify key people, organizations, and locations mentioned\n3. Detect major sections or thematic divisions\n4. Generate 5–10 multiple-choice quiz questions with:\n   - question\n   - four answer options (A-D)\n   - correct answer (must be one of: A, B, C, or D)\n   - difficulty level: easy/medium/hard\n   - explanation grounded strictly in the article\n5. Suggest 3–8 related Wikipedia topics based on themes in the article\n\nConstraints:\n- Use ONLY the article text; do not assume external facts.\n- Output MUST be valid JSON following this schema:\n\n\x7b\n  \"title\": \"\",\n  \"summary\": \"\",\n  \"key_entities\": \x7b\n    \"people\": [],\n    \"organizations\": [],\n    \"locations\": []\n  \x7d,\n  \"sections\": [],\n  \"quiz\": [\n    \x7b\n      \"question\": \"\",\n      \"options\": [\"\", \"\", \"\", \"\"],\n      \"answer\": \"\",\n      \"difficulty\": \"\",\n      \"explanation\": \"\"\n    \x7d\n  ],\n  \"related_topics\": []\n\x7d\n\nRespond with JSON only."

/-- Line 138 user message: article title and extracted text interpolated
into the fixed template. -/
def userContent (title articleText : Str) : Str :=
  ("Article Title: ").data ++ title ++ ("\n\nArticle Content:\n").data ++
    articleText

/-- The completion-service request of lines 128-142 (the fixed sampling
temperature 0.7 is part of the literal request and carries no information). -/
structure AiRequest where
  model : String
  system : String
  user : Str

def mkAiRequest (title articleText : Str) : AiRequest :=
  ⟨"google/gemini-2.5-flash", systemPrompt, userContent title articleText⟩

/-- A network request issued by the handler. -/
inductive NetCall where
  | wikiGet : Str → NetCall
  | aiPost : AiRequest → NetCall

/-- Line 186: `quizData.wikipedia_url = wikipediaUrl`.  On an object the
property is set (overwriting in place, appending otherwise); on an array
the assignment succeeds but `JSON.stringify` drops non-index properties, so
the serialized payload is unchanged; on a primitive the assignment throws a
`TypeError` in strict mode, landing in the catch-all. -/
def attachUrl : JsonV → Str → Option JsonV
  | .jobj fs, url =>
    some (.jobj (insertField fs (("wikipedia_url").data) (.jstr url)))
  | .jarr xs, _ => some (.jarr xs)
  | _, _ => none

/-- The `TypeError` text of a strict-mode property assignment on a
primitive is produced by the runtime; only the fact that the catch-all
yields a 500 with the error message matters. -/
def typeErrorMessage : String := "Cannot create property"

/-- Lines 144-193: the handler response determined by the
completion-service answer. -/
def aiRespOf (wikipediaUrl : Str) (env : Env) : HResponse :=
  if !respOk env.aiStatus then
    if env.aiStatus = 429 then
      ⟨429, RespBody.errMsg "Rate limit exceeded. Please try again later."⟩
    else if env.aiStatus = 402 then
      ⟨402, RespBody.errMsg
          "Payment required. Please add credits to your Lovable AI workspace."⟩
    else ⟨500, RespBody.errMsg "AI generation failed"⟩
  else
    match jsonParse (jsonTextOf env.aiContent) with
    | none => ⟨500, RespBody.errMsg "Invalid JSON response from AI"⟩
    | some quizData =>
      match attachUrl quizData wikipediaUrl with
      | none => ⟨500, RespBody.errMsg typeErrorMessage⟩
      | some payload => ⟨200, RespBody.json payload⟩

/-- Lines 128-193: the completion request (always issued once this point is
reached) and the response derived from its result. -/
def aiStage (wikipediaUrl : Str) (env : Env) (req : AiRequest) :
    HResponse × List NetCall :=
  (aiRespOf wikipediaUrl env, [NetCall.aiPost req])

/-- Lines 57-142: extraction from a parsed document, then the API-key check
and the completion call. -/
def extractStage (wikipediaUrl : Str) (env : Env) (doc : Doc) :
    HResponse × List NetCall :=
  match doc.contentDiv with
  | none => (⟨500, RespBody.errMsg "Could not find article content"⟩, [])
  | some ps =>
    if (articleTextOf ps).length < 500 then
      (⟨500, RespBody.errMsg
          "Article content is too short to generate a meaningful quiz"⟩, [])
    else if !env.hasApiKey then
      (⟨500, RespBody.errMsg "LOVABLE_API_KEY not configured"⟩, [])
    else aiStage wikipediaUrl env (mkAiRequest (titleOf doc) (articleTextOf ps))

/-- Lines 44-55: the Wikipedia GET (always issued once this point is
reached) and the HTML parse, then the rest of the pipeline. -/
def fetchStage (wikipediaUrl : Str) (env : Env) : HResponse × List NetCall :=
  let later :=
    if !env.wikiOk then
      (⟨500, RespBody.errMsg "Failed to fetch Wikipedia article"⟩, [])
    else
      match env.domDoc with
      | none => (⟨500, RespBody.errMsg "Failed to parse Wikipedia HTML"⟩, [])
      | some doc => extractStage wikipediaUrl env doc
  (later.1, NetCall.wikiGet wikipediaUrl :: later.2)

/-- Lines 14-204: the whole handler for a POST request whose body carried
the given `wikipediaUrl` value (`none` models an absent field). -/
def handler (wikipediaUrl : Option Str) (env : Env) :
    HResponse × List NetCall :=
  match wikipediaUrl with
  | none => (⟨400, RespBody.errMsg "Wikipedia URL is required"⟩, [])
  | some url =>
    if url.isEmpty then (⟨400, RespBody.errMsg "Wikipedia URL is required"⟩, [])
    else
      match env.urlParse with
      | none => (⟨400, RespBody.errMsg "Invalid URL format"⟩, [])
      | some p =>
        if !validWikiUrl p then
          (⟨400, RespBody.errMsg
              "Invalid Wikipedia URL. Must be from *.wikipedia.org"⟩, [])
        else fetchStage url env

/-! ## Concrete inputs used by the witnesses -/

def exUrl : Str := ("https://en.wikipedia.org/wiki/Test").data

def exParsed : ParsedURL := ⟨("https:").data, ("en.wikipedia.org").data⟩

def exBadParsed : ParsedURL := ⟨("https:").data, ("evil.com").data⟩

def exPs : List (Option Str) := [some (List.replicate 600 'a')]

def exDoc : Doc := ⟨some (("Test").data), some exPs⟩

/-- An environment in which everything up to the completion call succeeds,
parameterized by the completion-service status and text. -/
def exEnv (st : Nat) (content : Str) : Env :=
  ⟨some exParsed, true, some exDoc, true, st, content⟩

/-- The C1 witness environment: the URL parses, but to a non-Wikipedia
hostname. -/
def exBadEnv : Env := { exEnv 200 [] with urlParse := some exBadParsed }

/-- Adjacent-pair relation: a line feed is never immediately followed by a
backtick. -/
def noNlBt (a b : Char) : Prop := ¬(a = '\n' ∧ b = btick)

/-- `quoteBeforeNl r` holds when a double quote occurs in `r` before any
line feed does. -/
def quoteBeforeNl : Str → Bool
  | [] => false
  | c :: cs => if c = '"' then true else if c = '\n' then false else quoteBeforeNl cs

/-- Every backtick is followed by a double quote before any line feed. -/
def safeBt : Str → Bool
  | [] => true
  | c :: cs => (if c = btick then quoteBeforeNl cs else true) && safeBt cs

/-- The invariant carried by every stretch of text the JSON parser
consumes. -/
structure GoodChunk (u : Str) : Prop where
  chain : List.Chain' noNlBt u
  safe : safeBt u = true
  hd : ∀ c ∈ u.head?, c ≠ btick
  lst : ∀ c ∈ u.getLast?, c ≠ btick

/-- The consumed text of a string-literal body: no line feed anywhere, and
the final character is the closing quote. -/
def StrTok (u : Str) : Prop := (∀ c ∈ u, c ≠ '\n') ∧ u.getLast? = some '"'

/-- The fenced completion of claim C3: the text wrapped in a markdown json
code fence. -/
def wrapJsonFence (t : Str) : Str := jsonFenceOpen ++ t ++ closeFence

/-- A short article: one paragraph that survives the 50-character filter
but leaves the joined body under 500 characters. -/
def exShortEnv : Env :=
  { exEnv 200 [] with domDoc := some ⟨none, some [some (List.replicate 100 'a')]⟩ }

/-- A small JSON object used to instantiate C3. -/
def exJson : Str := ("\x7b\"a\": [1, \"x\"]\x7d").data

/-- The key attached by the orchestrator. -/
def wkey : Str := ("wikipedia_url").data

/-- A fenced, well-formed completion used to instantiate C9. -/
def exQuizContent : Str :=
  ("```json\n\x7b\"title\":\"T\",\"quiz\":[]\x7d\n```").data

def exQuizFields : List (Str × JsonV) :=
  [(("title").data, JsonV.jstr (("T").data)), (("quiz").data, JsonV.jarr [])]

/-- The four option labels. -/
def answerLabels : List Str :=
  [("A").data, ("B").data, ("C").data, ("D").data]

/-- The invariant claimed of a quiz entry: an `answer` field holding one of
the four option labels. -/
def answerOk : JsonV → Bool
  | JsonV.jobj f =>
    (match getField f (("answer").data) with
     | some (JsonV.jstr a) => answerLabels.contains a
     | _ => false)
  | _ => false

/-- A completion whose quiz entry carries the out-of-range answer "E". -/
def exBadAnswerContent : Str :=
  ("\x7b\"quiz\":[\x7b\"answer\":\"E\"\x7d]\x7d").data

def exBadAnswerEnv : Env := exEnv 200 exBadAnswerContent

def exNormalQuizEnv : Env := exEnv 200 exBadAnswerContent

/-! ## Claim C1 -/

/-- Claim C1: for every input URL whose hostname does not end in
`.wikipedia.org` or whose scheme is neither http nor https, the handler
returns HTTP 400 with a single-field error body and performs no network
fetch. -/
theorem c1_invalid_url_rejected (wu : Option Str) (env : Env) (p : ParsedURL)
    (hp : env.urlParse = some p) (hbad : validWikiUrl p = false) :
    (handler wu env).1.status = 400 ∧
    (∃ m, (handler wu env).1.body = RespBody.errMsg m) ∧
    (handler wu env).2 = [] := by
  cases wu with
  | none => exact ⟨rfl, ⟨_, rfl⟩, rfl⟩
  | some url =>
    by_cases hu : url.isEmpty = true
    · simp [handler, hu]
    · simp only [handler, hu, if_false, Bool.not_eq_true] at *
      simp [handler, hu, hp, hbad]

theorem c1_witness :
    (handler (some exUrl) exBadEnv).1.status = 400 ∧
    (∃ m, (handler (some exUrl) exBadEnv).1.body = RespBody.errMsg m) ∧
    (handler (some exUrl) exBadEnv).2 = [] :=
  c1_invalid_url_rejected (some exUrl) exBadEnv exBadParsed rfl (by decide)

/-! ## Claim C6 -/

/-- On a string that is present, the source's truthiness-and-length filter
collapses to the pure length threshold. -/
lemma keepPara_some (t : Str) : keepPara (some t) = decide (t.length > 50) := by
  cases t with
  | nil => simp [keepPara, jsTruthy]
  | cons a l => simp [keepPara, jsTruthy]

lemma dropWhile_replicate_of_not {p : Char → Bool} {c : Char} (h : p c = false)
    (n : Nat) : List.dropWhile p (List.replicate n c) = List.replicate n c := by
  cases n with
  | zero => rfl
  | succ m => simp [List.replicate_succ, List.dropWhile_cons, h]

/-- Trimming a run of a non-whitespace character is the identity. -/
lemma jsTrim_replicate {c : Char} (h : isTrimWs c = false) (n : Nat) :
    jsTrim (List.replicate n c) = List.replicate n c := by
  simp [jsTrim, dropWhile_replicate_of_not h, List.reverse_replicate]

/-- Claim C6: exactly the paragraphs whose trimmed text is longer than 50
characters survive the filter, the survivors are joined in order with a
blank-line separator, and on trimmed lengths [10, 60, 40, 200] exactly the
60- and 200-character paragraphs survive. -/
theorem c6_paragraph_filter :
    (∀ ps : List Str,
       paragraphs (ps.map some) =
         ((ps.map jsTrim).filter (fun t => decide (t.length > 50))).map some ∧
       joinedParagraphs (ps.map some) =
         List.intercalate nlnl
           ((ps.map jsTrim).filter (fun t => decide (t.length > 50)))) ∧
    paragraphs [some (List.replicate 10 'a'), some (List.replicate 60 'a'),
        some (List.replicate 40 'a'), some (List.replicate 200 'a')] =
      [some (List.replicate 60 'a'), some (List.replicate 200 'a')] := by
  have key : ∀ ps : List Str,
      paragraphs (ps.map some) =
        ((ps.map jsTrim).filter (fun t => decide (t.length > 50))).map some := by
    intro ps
    have h1 : paragraphs (ps.map some) =
        ((ps.map jsTrim).map some).filter keepPara := by
      simp [paragraphs, List.map_map]
    rw [h1, List.filter_map]
    exact congrArg (List.map some) (List.filter_congr (fun t _ => keepPara_some t))
  refine ⟨fun ps => ⟨key ps, ?_⟩, ?_⟩
  · rw [joinedParagraphs, key ps, List.map_map]
    have h2 : ((fun (o : Option Str) => o.getD []) ∘ some) = fun t => t := by
      funext t; rfl
    rw [h2, List.map_id']
  · decide

theorem c6_witness :
    paragraphs ([(List.replicate 60 'b')].map some) =
      ((([(List.replicate 60 'b')]).map jsTrim).filter
        (fun t => decide (t.length > 50))).map some :=
  (c6_paragraph_filter.1 [(List.replicate 60 'b')]).1

/-! ## Claim C7 -/

/-- Claim C7: a joined paragraph body of more than 15,000 characters is cut
to exactly its first 15,000 characters; a shorter or equal body is passed
through unchanged. -/
theorem c7_truncation (ps : List (Option Str)) :
    ((joinedParagraphs ps).length ≤ 15000 →
       articleTextOf ps = joinedParagraphs ps) ∧
    (15000 < (joinedParagraphs ps).length →
       (articleTextOf ps).length = 15000 ∧
       ∃ rest, joinedParagraphs ps = articleTextOf ps ++ rest) := by
  constructor
  · intro h
    exact List.take_of_length_le h
  · intro h
    refine ⟨?_, (joinedParagraphs ps).drop 15000,
      (List.take_append_drop _ _).symm⟩
    rw [articleTextOf, List.length_take]
    omega

lemma intercalate_one (sep x : Str) : List.intercalate sep [x] = x := by
  simp [List.intercalate]

/-- The joined body of a single long paragraph of a repeated
non-whitespace character. -/
lemma joined_single_replicate {c : Char} (hc : isTrimWs c = false) {n : Nat}
    (hn : 50 < n) :
    joinedParagraphs [some (List.replicate n c)] = List.replicate n c := by
  have hk : keepPara (some (jsTrim (List.replicate n c))) = true := by
    rw [jsTrim_replicate hc, keepPara_some, List.length_replicate]
    simpa using hn
  simp only [joinedParagraphs, paragraphs, List.map_cons, List.map_nil,
    Option.map_some', List.filter, hk]
  rw [jsTrim_replicate hc]
  exact intercalate_one _ _

theorem c7_witness :
    articleTextOf ([] : List (Option Str)) = joinedParagraphs [] ∧
    (articleTextOf [some (List.replicate 15100 'a')]).length = 15000 := by
  have hbig : 15000 < (joinedParagraphs [some (List.replicate 15100 'a')]).length := by
    rw [joined_single_replicate (by decide) (by omega), List.length_replicate]
    omega
  exact ⟨(c7_truncation []).1 (by decide),
    ((c7_truncation [some (List.replicate 15100 'a')]).2 hbig).1⟩

/-! ## Claim C10 -/

/-- Claim C10: a document without a `#firstHeading` element, or whose title
trims to the empty string, gets the default title "Unknown Article", and
the pipeline behaves exactly as it would with that literal title present:
extraction does not fail on the missing title. -/
theorem c10_title_default (cd : Option (List (Option Str))) (t : Str)
    (ht : jsTrim t = []) :
    titleOf ⟨none, cd⟩ = ("Unknown Article").data ∧
    titleOf ⟨some t, cd⟩ = ("Unknown Article").data ∧
    ∀ (wu : Option Str) (env : Env),
      handler wu { env with domDoc := some ⟨none, cd⟩ } =
        handler wu { env with domDoc := some ⟨some (("Unknown Article").data), cd⟩ } := by
  have h1 : titleOf ⟨none, cd⟩ = ("Unknown Article").data := rfl
  have h2 : titleOf ⟨some (("Unknown Article").data), cd⟩ =
      ("Unknown Article").data := by
    simp [titleOf,
      show jsTrim (("Unknown Article").data) = ("Unknown Article").data
        from by decide]
  refine ⟨h1, by simp [titleOf, ht], ?_⟩
  intro wu env
  cases wu with
  | none => rfl
  | some url =>
    simp only [handler, fetchStage, extractStage, aiStage, aiRespOf]
    rw [h1, h2]

theorem c10_witness :
    titleOf ⟨none, some exPs⟩ = ("Unknown Article").data ∧
    titleOf ⟨some (("  ").data), some exPs⟩ = ("Unknown Article").data ∧
    handler (some exUrl) { exEnv 200 [] with domDoc := some ⟨none, some exPs⟩ } =
      handler (some exUrl)
        { exEnv 200 [] with
            domDoc := some ⟨some (("Unknown Article").data), some exPs⟩ } := by
  have h := c10_title_default (some exPs) (("  ").data) (by decide)
  exact ⟨h.1, h.2.1, h.2.2 (some exUrl) (exEnv 200 [])⟩

/-! ## Reaching the completion call

The hypotheses under which the handler's control flow reaches the
completion-service request, shared by the claims about the later stages. -/

theorem handler_reach (url : Str) (env : Env) (p : ParsedURL) (doc : Doc)
    (ps : List (Option Str))
    (h1 : url ≠ []) (h2 : env.urlParse = some p) (h3 : validWikiUrl p = true)
    (h4 : env.wikiOk = true) (h5 : env.domDoc = some doc)
    (h6 : doc.contentDiv = some ps)
    (h7 : 500 ≤ (articleTextOf ps).length) (h8 : env.hasApiKey = true) :
    handler (some url) env =
      (aiRespOf url env,
       [NetCall.wikiGet url,
        NetCall.aiPost (mkAiRequest (titleOf doc) (articleTextOf ps))]) := by
  have hue : url.isEmpty = false := by
    cases url with
    | nil => exact absurd rfl h1
    | cons a l => rfl
  have hlen : ¬ (articleTextOf ps).length < 500 := by omega
  simp [handler, fetchStage, extractStage, aiStage, hue, h2, h3, h4, h5, h6,
    h8, hlen]

/-! ## Claim C4 -/

/-- Claim C4: a non-success completion-service status is propagated: 429
becomes HTTP 429 with the rate-limit message, 402 becomes HTTP 402, any
other non-success status becomes HTTP 500, and no quiz payload is returned
in any of these cases. -/
theorem c4_ai_error_statuses (url : Str) (env : Env) (p : ParsedURL)
    (doc : Doc) (ps : List (Option Str))
    (h1 : url ≠ []) (h2 : env.urlParse = some p) (h3 : validWikiUrl p = true)
    (h4 : env.wikiOk = true) (h5 : env.domDoc = some doc)
    (h6 : doc.contentDiv = some ps)
    (h7 : 500 ≤ (articleTextOf ps).length) (h8 : env.hasApiKey = true)
    (hbad : respOk env.aiStatus = false) :
    (env.aiStatus = 429 → (handler (some url) env).1 =
        ⟨429, RespBody.errMsg "Rate limit exceeded. Please try again later."⟩) ∧
    (env.aiStatus = 402 → (handler (some url) env).1 =
        ⟨402, RespBody.errMsg
          "Payment required. Please add credits to your Lovable AI workspace."⟩) ∧
    (env.aiStatus ≠ 429 → env.aiStatus ≠ 402 → (handler (some url) env).1 =
        ⟨500, RespBody.errMsg "AI generation failed"⟩) ∧
    (∀ v, (handler (some url) env).1.body ≠ RespBody.json v) := by
  rw [handler_reach url env p doc ps h1 h2 h3 h4 h5 h6 h7 h8]
  by_cases h429 : env.aiStatus = 429
  · refine ⟨fun _ => by
        simp [aiRespOf, h429, show respOk 429 = false from by decide],
      fun h => by omega, fun h _ => absurd h429 h, fun v => ?_⟩
    simp [aiRespOf, h429, show respOk 429 = false from by decide]
  · by_cases h402 : env.aiStatus = 402
    · refine ⟨fun h => absurd h h429, fun _ => by
          simp [aiRespOf, h402, show respOk 402 = false from by decide],
        fun _ h => absurd h402 h, fun v => ?_⟩
      simp [aiRespOf, h402, show respOk 402 = false from by decide]
    · refine ⟨fun h => absurd h h429, fun h => absurd h h402,
        fun _ _ => by simp [aiRespOf, hbad, h429, h402], fun v => ?_⟩
      simp [aiRespOf, hbad, h429, h402]

theorem c4_witness :
    (handler (some exUrl) (exEnv 429 [])).1 =
      ⟨429, RespBody.errMsg "Rate limit exceeded. Please try again later."⟩ ∧
    (handler (some exUrl) (exEnv 402 [])).1 =
      ⟨402, RespBody.errMsg
        "Payment required. Please add credits to your Lovable AI workspace."⟩ ∧
    (handler (some exUrl) (exEnv 500 [])).1 =
      ⟨500, RespBody.errMsg "AI generation failed"⟩ := by
  refine ⟨(c4_ai_error_statuses exUrl (exEnv 429 []) exParsed exDoc exPs
      (by decide) rfl (by decide) rfl rfl rfl (by decide) rfl (by decide)).1 rfl,
    (c4_ai_error_statuses exUrl (exEnv 402 []) exParsed exDoc exPs
      (by decide) rfl (by decide) rfl rfl rfl (by decide) rfl (by decide)).2.1 rfl,
    (c4_ai_error_statuses exUrl (exEnv 500 []) exParsed exDoc exPs
      (by decide) rfl (by decide) rfl rfl rfl (by decide) rfl (by decide)).2.2.1
      (by decide) (by decide)⟩

/-! ## Claim C8 -/

/-- Claim C8: an extracted body shorter than 500 characters (after
filtering and truncation) aborts with the "too short" error as HTTP 500
before any completion-service request; a body of 500 characters or more
passes the gate and the completion request is issued. -/
theorem c8_short_body_gate (url : Str) (env : Env) (p : ParsedURL)
    (doc : Doc) (ps : List (Option Str))
    (h1 : url ≠ []) (h2 : env.urlParse = some p) (h3 : validWikiUrl p = true)
    (h4 : env.wikiOk = true) (h5 : env.domDoc = some doc)
    (h6 : doc.contentDiv = some ps) :
    ((articleTextOf ps).length < 500 →
       handler (some url) env =
         (⟨500, RespBody.errMsg
            "Article content is too short to generate a meaningful quiz"⟩,
          [NetCall.wikiGet url])) ∧
    (500 ≤ (articleTextOf ps).length → env.hasApiKey = true →
       (handler (some url) env).2 =
         [NetCall.wikiGet url,
          NetCall.aiPost (mkAiRequest (titleOf doc) (articleTextOf ps))]) := by
  have hue : url.isEmpty = false := by
    cases url with
    | nil => exact absurd rfl h1
    | cons a l => rfl
  constructor
  · intro hlen
    simp [handler, fetchStage, extractStage, hue, h2, h3, h4, h5, h6, hlen]
  · intro hlen h8
    rw [handler_reach url env p doc ps h1 h2 h3 h4 h5 h6 hlen h8]

/-! ## Structural facts about parseable JSON text

Claim C3 reduces to a structural property: a text accepted by `jsonParse`
never contains the closing delimiter `"\n" ++ backticks` nor either fence
opener.  A line feed can only occur as inter-token whitespace (never inside
a string literal, where it would be an unescaped control character), the
character after inter-token whitespace is never a backtick (no token starts
with one), and every backtick lies inside a string literal, whose closing
quote follows it before any line feed can.  These three facts are captured
by `GoodChunk` and proved for every text the parser consumes. -/

lemma mem_of_getLast?_eq {u : Str} {a : Char} (h : u.getLast? = some a) :
    a ∈ u := by
  induction u with
  | nil => simp at h
  | cons c cs ih =>
    cases cs with
    | nil => simp at h; simp [h]
    | cons b l =>
      rw [List.getLast?_cons_cons] at h
      exact List.mem_cons_of_mem c (ih h)

lemma quoteBeforeNl_append {r : Str} (h : quoteBeforeNl r = true) (v : Str) :
    quoteBeforeNl (r ++ v) = true := by
  induction r with
  | nil => simp [quoteBeforeNl] at h
  | cons c cs ih =>
    by_cases h1 : c = '"'
    · simp [quoteBeforeNl, h1]
    · by_cases h2 : c = '\n'
      · rw [quoteBeforeNl, if_neg h1, if_pos h2] at h; cases h
      · rw [List.cons_append, quoteBeforeNl, if_neg h1, if_neg h2]
        rw [quoteBeforeNl, if_neg h1, if_neg h2] at h
        exact ih h

lemma safeBt_append {u v : Str} (hu : safeBt u = true) (hv : safeBt v = true) :
    safeBt (u ++ v) = true := by
  induction u with
  | nil => simpa using hv
  | cons c cs ih =>
    rw [safeBt, Bool.and_eq_true] at hu
    rw [List.cons_append, safeBt, Bool.and_eq_true]
    refine ⟨?_, ih hu.2⟩
    by_cases hc : c = btick
    · rw [if_pos hc] at hu ⊢
      exact quoteBeforeNl_append hu.1 v
    · rw [if_neg hc]

lemma safeBt_of_noBt {u : Str} (h : ∀ c ∈ u, c ≠ btick) : safeBt u = true := by
  induction u with
  | nil => rfl
  | cons c cs ih =>
    rw [safeBt, Bool.and_eq_true]
    exact ⟨by rw [if_neg (h c (List.mem_cons_self c cs))],
      ih fun d hd => h d (List.mem_cons_of_mem c hd)⟩

lemma safeBt_suffix {l m : Str} (h : safeBt (l ++ m) = true) :
    safeBt m = true := by
  induction l with
  | nil => simpa using h
  | cons c cs ih =>
    rw [List.cons_append, safeBt, Bool.and_eq_true] at h
    exact ih h.2

lemma chain_of_noNl {u : Str} (h : ∀ c ∈ u, c ≠ '\n') :
    List.Chain' noNlBt u := by
  induction u with
  | nil => exact List.chain'_nil
  | cons a l ih =>
    cases l with
    | nil => exact List.chain'_singleton a
    | cons b l2 =>
      rw [List.chain'_cons]
      exact ⟨fun hab => (h a (List.mem_cons_self _ _)) hab.1,
        ih fun c hc => h c (List.mem_cons_of_mem a hc)⟩

lemma chain_of_noBt {u : Str} (h : ∀ c ∈ u, c ≠ btick) :
    List.Chain' noNlBt u := by
  induction u with
  | nil => exact List.chain'_nil
  | cons a l ih =>
    cases l with
    | nil => exact List.chain'_singleton a
    | cons b l2 =>
      rw [List.chain'_cons]
      exact ⟨fun hab => (h b (List.mem_cons_of_mem a (List.mem_cons_self _ _))) hab.2,
        ih fun c hc => h c (List.mem_cons_of_mem a hc)⟩

lemma goodChunk_nil : GoodChunk [] :=
  ⟨List.chain'_nil, rfl, by simp, by simp⟩

/-- Any stretch that contains no backtick is a good chunk. -/
lemma goodChunk_noBt {u : Str} (h : ∀ c ∈ u, c ≠ btick) : GoodChunk u :=
  ⟨chain_of_noBt h, safeBt_of_noBt h,
   fun c hc => h c (List.mem_of_mem_head? hc),
   fun c hc => h c (mem_of_getLast?_eq hc)⟩

lemma goodChunk_append {u v : Str} (hu : GoodChunk u) (hv : GoodChunk v) :
    GoodChunk (u ++ v) := by
  refine ⟨List.chain'_append.mpr ⟨hu.chain, hv.chain, ?_⟩,
    safeBt_append hu.safe hv.safe, ?_, ?_⟩
  · intro x _ y hy hxy
    exact hv.hd y hy hxy.2
  · cases u with
    | nil => simpa using hv.hd
    | cons a l => simpa using hu.hd
  · cases v with
    | nil => simpa using hu.lst
    | cons b l =>
      intro c hc
      rw [List.getLast?_append_cons] at hc
      exact hv.lst c hc

lemma quoteBeforeNl_of_mem {r : Str} (hq : '"' ∈ r)
    (hn : ∀ c ∈ r, c ≠ '\n') : quoteBeforeNl r = true := by
  induction r with
  | nil => simp at hq
  | cons c cs ih =>
    by_cases h1 : c = '"'
    · rw [quoteBeforeNl, if_pos h1]
    · have h2 : c ≠ '\n' := hn c (List.mem_cons_self _ _)
      rw [quoteBeforeNl, if_neg h1, if_neg h2]
      have hq2 : '"' ∈ cs := by
        rcases List.mem_cons.mp hq with h | h
        · exact absurd h.symm h1
        · exact h
      exact ih hq2 fun d hd => hn d (List.mem_cons_of_mem c hd)

lemma safeBt_endQuote {u : Str} (hn : ∀ c ∈ u, c ≠ '\n')
    (hl : u.getLast? = some '"') : safeBt u = true := by
  induction u with
  | nil => rfl
  | cons c cs ih =>
    cases cs with
    | nil =>
      have hc : c = '"' := by simpa using hl
      rw [safeBt, Bool.and_eq_true]
      exact ⟨by rw [if_neg (by rw [hc]; decide)], rfl⟩
    | cons b l =>
      have hl2 : (b :: l).getLast? = some '"' := by
        rwa [List.getLast?_cons_cons] at hl
      have ih2 := ih (fun d hd => hn d (List.mem_cons_of_mem c hd)) hl2
      rw [safeBt, Bool.and_eq_true]
      refine ⟨?_, ih2⟩
      by_cases hc : c = btick
      · rw [if_pos hc]
        exact quoteBeforeNl_of_mem (mem_of_getLast?_eq hl2)
          fun d hd => hn d (List.mem_cons_of_mem c hd)
      · rw [if_neg hc]

/-- The text of a whole string literal, `'"'` followed by the consumed body
(which ends with the closing quote), is a good chunk. -/
lemma goodChunk_strToken {u : Str} (hn : ∀ c ∈ u, c ≠ '\n')
    (hl : u.getLast? = some '"') : GoodChunk ('"' :: u) := by
  refine ⟨chain_of_noNl ?_, ?_, ?_, ?_⟩
  · intro c hc
    rcases List.mem_cons.mp hc with h | h
    · rw [h]; decide
    · exact hn c h
  · rw [safeBt, Bool.and_eq_true]
    exact ⟨by rw [if_neg (by decide)], safeBt_endQuote hn hl⟩
  · intro c hc
    have : c = '"' := by
      have h := by simpa using hc
      exact h.symm
    rw [this]; decide
  · intro c hc
    cases u with
    | nil => simp at hl
    | cons b l =>
      rw [List.getLast?_cons_cons] at hc
      rw [hl] at hc
      have : c = '"' := by
        have h := by simpa using hc
        exact h.symm
      rw [this]; decide

/-! ### What each leaf parser consumes -/

lemma strTok_cons {u : Str} {c : Char} (hc : c ≠ '\n') (h : StrTok u) :
    StrTok (c :: u) := by
  refine ⟨?_, ?_⟩
  · intro d hd
    rcases List.mem_cons.mp hd with h1 | h1
    · rw [h1]; exact hc
    · exact h.1 d h1
  · cases u with
    | nil => exact absurd h.2 (by simp)
    | cons b l => rw [List.getLast?_cons_cons]; exact h.2

lemma escChar_ne_nl {e d : Char} (h : escChar e = some d) : e ≠ '\n' := by
  intro he
  rw [he] at h
  simp [escChar] at h

lemma isHexDig_ne_nl {c : Char} (h : isHexDig c = true) : c ≠ '\n' := by
  intro he
  rw [he] at h
  exact absurd h (by decide)

lemma parseStrBody_consumed :
    ∀ (fuel : Nat) (s d r : Str), parseStrBody fuel s = some (d, r) →
      ∃ u, s = u ++ r ∧ StrTok u := by
  intro fuel
  induction fuel with
  | zero => intro s d r h; exact Option.noConfusion h
  | succ n ih =>
    intro s d r h
    cases s with
    | nil => exact Option.noConfusion h
    | cons c cs =>
      simp only [parseStrBody] at h
      by_cases h1 : c = '"'
      · rw [if_pos h1] at h
        obtain ⟨hd, hr⟩ := Prod.mk.injEq .. ▸ Option.some.inj h
        refine ⟨['"'], ?_, by decide, rfl⟩
        rw [h1, ← hr]
        rfl
      · by_cases h2 : c = '\\'
        · rw [if_neg h1, if_pos h2] at h
          cases cs with
          | nil => exact Option.noConfusion h
          | cons e cs1 =>
            dsimp only at h
            cases hesc : escChar e with
            | some d0 =>
              rw [hesc] at h
              dsimp only at h
              rcases Option.map_eq_some'.mp h with ⟨p, hp, hpe⟩
              obtain ⟨u, hu, htok⟩ := ih cs1 p.1 p.2 hp
              have hr : r = p.2 := by
                have h5 := congrArg Prod.snd hpe
                simpa using h5.symm
              refine ⟨c :: e :: u, ?_, ?_⟩
              · rw [hr, List.cons_append, List.cons_append, ← hu]
              · exact strTok_cons (h2 ▸ by decide)
                  (strTok_cons (escChar_ne_nl hesc) htok)
            | none =>
              rw [hesc] at h
              dsimp only at h
              by_cases h3 : e = 'u'
              · rw [if_pos h3] at h
                split at h
                next h1c h2c h3c h4c cs2 =>
                  by_cases hhex : (isHexDig h1c && isHexDig h2c && isHexDig h3c
                      && isHexDig h4c) = true
                  · rw [if_pos hhex] at h
                    rcases Option.map_eq_some'.mp h with ⟨p, hp, hpe⟩
                    obtain ⟨u, hu, htok⟩ := ih cs2 p.1 p.2 hp
                    have hr : r = p.2 := by
                      have h5 := congrArg Prod.snd hpe
                      simpa using h5.symm
                    simp only [Bool.and_eq_true] at hhex
                    refine ⟨c :: e :: h1c :: h2c :: h3c :: h4c :: u, ?_, ?_⟩
                    · rw [hr]
                      simp only [List.cons_append]
                      rw [← hu]
                    · exact strTok_cons (h2 ▸ by decide)
                        (strTok_cons (h3 ▸ by decide)
                          (strTok_cons (isHexDig_ne_nl hhex.1.1.1)
                            (strTok_cons (isHexDig_ne_nl hhex.1.1.2)
                              (strTok_cons (isHexDig_ne_nl hhex.1.2)
                                (strTok_cons (isHexDig_ne_nl hhex.2) htok)))))
                  · rw [if_neg hhex] at h
                    exact Option.noConfusion h
                next => exact Option.noConfusion h
              · rw [if_neg h3] at h
                exact Option.noConfusion h
        · rw [if_neg h1, if_neg h2] at h
          by_cases h3 : c.toNat < 32
          · rw [if_pos h3] at h
            exact Option.noConfusion h
          · rw [if_neg h3] at h
            rcases Option.map_eq_some'.mp h with ⟨p, hp, hpe⟩
            obtain ⟨u, hu, htok⟩ := ih cs p.1 p.2 hp
            have hr : r = p.2 := by
              have h5 := congrArg Prod.snd hpe
              simpa using h5.symm
            refine ⟨c :: u, ?_, ?_⟩
            · rw [hr, List.cons_append, ← hu]
            · refine strTok_cons (fun he => h3 ?_) htok
              rw [he]
              decide

lemma isDigit_safe {c : Char} (h : c.isDigit = true) :
    c ≠ '\n' ∧ c ≠ btick := by
  constructor <;> intro he <;> rw [he] at h <;> exact absurd h (by decide)

lemma fracPart_consumed (s f r : Str) (h : parseFracPart s = some (f, r)) :
    s = f ++ r ∧ ∀ c ∈ f, c ≠ '\n' ∧ c ≠ btick := by
  rw [parseFracPart.eq_def] at h
  split at h
  next r0 =>
    split at h
    · exact Option.noConfusion h
    · obtain ⟨hf, hr⟩ := Prod.mk.injEq .. ▸ Option.some.inj h
      subst hf hr
      constructor
      · rw [List.cons_append, List.takeWhile_append_dropWhile]
      · intro c hc
        rcases List.mem_cons.mp hc with h1 | h1
        · rw [h1]; exact ⟨by decide, by decide⟩
        · exact isDigit_safe (List.mem_takeWhile_imp h1)
  next =>
    obtain ⟨hf, hr⟩ := Prod.mk.injEq .. ▸ Option.some.inj h
    subst hf hr
    exact ⟨rfl, by simp⟩

lemma parseSign_decomp (r : Str) :
    r = (parseSign r).1 ++ (parseSign r).2 ∧
    ∀ c ∈ (parseSign r).1, c ≠ '\n' ∧ c ≠ btick := by
  rw [parseSign.eq_def]
  split
  · exact ⟨rfl, by intro c hc; simp at hc; rw [hc]; exact ⟨by decide, by decide⟩⟩
  · exact ⟨rfl, by intro c hc; simp at hc; rw [hc]; exact ⟨by decide, by decide⟩⟩
  · exact ⟨rfl, by simp⟩

lemma expPart_consumed (s f r : Str) (h : parseExpPart s = some (f, r)) :
    s = f ++ r ∧ ∀ c ∈ f, c ≠ '\n' ∧ c ≠ btick := by
  rw [parseExpPart.eq_def] at h
  split at h
  next c r0 =>
    split at h
    next hce =>
      split at h
      · exact Option.noConfusion h
      · obtain ⟨hf, hr⟩ := Prod.mk.injEq .. ▸ Option.some.inj h
        subst hf hr
        have hcs : c ≠ '\n' ∧ c ≠ btick := by
          have h2 : c = 'e' ∨ c = 'E' := by
            simpa [Bool.or_eq_true, decide_eq_true_eq] using hce
          rcases h2 with h2 | h2 <;> rw [h2] <;> exact ⟨by decide, by decide⟩
        obtain ⟨hsr, hss⟩ := parseSign_decomp r0
        constructor
        · rw [List.cons_append, List.append_assoc,
            List.takeWhile_append_dropWhile]
          rw [← hsr]
        · intro c2 hc2
          rcases List.mem_cons.mp hc2 with h1 | h1
          · rw [h1]; exact hcs
          · rcases List.mem_append.mp h1 with h1 | h1
            · exact hss c2 h1
            · exact isDigit_safe (List.mem_takeWhile_imp h1)
    next =>
      obtain ⟨hf, hr⟩ := Prod.mk.injEq .. ▸ Option.some.inj h
      subst hf hr
      exact ⟨rfl, by simp⟩
  next =>
    obtain ⟨hf, hr⟩ := Prod.mk.injEq .. ▸ Option.some.inj h
    subst hf hr
    exact ⟨rfl, by simp⟩

lemma numTail_consumed (ip s lex r : Str)
    (h : parseNumTail ip s = some (lex, r)) :
    ∃ u, s = u ++ r ∧ ∀ c ∈ u, c ≠ '\n' ∧ c ≠ btick := by
  rw [parseNumTail.eq_def] at h
  split at h
  · exact Option.noConfusion h
  next frac s1 heq1 =>
    split at h
    · exact Option.noConfusion h
    next ep s2 heq2 =>
      obtain ⟨_, hr⟩ := Prod.mk.injEq .. ▸ Option.some.inj h
      subst hr
      obtain ⟨hs1, hf⟩ := fracPart_consumed _ _ _ heq1
      obtain ⟨hs2, he⟩ := expPart_consumed _ _ _ heq2
      refine ⟨frac ++ ep, ?_, ?_⟩
      · rw [hs1, hs2, List.append_assoc]
      · intro c hc
        rcases List.mem_append.mp hc with h1 | h1
        · exact hf c h1
        · exact he c h1

lemma parseNumber_consumed (s lex r : Str)
    (h : parseNumber s = some (lex, r)) :
    ∃ u, s = u ++ r ∧ ∀ c ∈ u, c ≠ '\n' ∧ c ≠ btick := by
  rw [parseNumber.eq_def] at h
  split at h
  · exact Option.noConfusion h
  next c r0 =>
    by_cases hneg : c = '-'
    · rw [if_pos hneg] at h
      cases r0 with
      | nil => exact Option.noConfusion h
      | cons c2 r2 =>
        dsimp only at h
        by_cases h0 : c2 = '0'
        · rw [if_pos h0] at h
          obtain ⟨u, hu, hsafe⟩ := numTail_consumed _ _ _ _ h
          refine ⟨c :: c2 :: u, ?_, ?_⟩
          · rw [List.cons_append, List.cons_append, ← hu]
          · intro d hd
            rcases List.mem_cons.mp hd with h1 | h1
            · rw [h1, hneg]; exact ⟨by decide, by decide⟩
            · rcases List.mem_cons.mp h1 with h1 | h1
              · rw [h1, h0]; exact ⟨by decide, by decide⟩
              · exact hsafe d h1
        · rw [if_neg h0] at h
          by_cases hd2 : c2.isDigit = true
          · rw [if_pos hd2] at h
            obtain ⟨u, hu, hsafe⟩ := numTail_consumed _ _ _ _ h
            refine ⟨c :: c2 :: (r2.takeWhile Char.isDigit ++ u), ?_, ?_⟩
            · rw [List.cons_append, List.cons_append, List.append_assoc, ← hu,
                List.takeWhile_append_dropWhile]
            · intro d hd
              rcases List.mem_cons.mp hd with h1 | h1
              · rw [h1, hneg]; exact ⟨by decide, by decide⟩
              · rcases List.mem_cons.mp h1 with h1 | h1
                · rw [h1]; exact isDigit_safe hd2
                · rcases List.mem_append.mp h1 with h1 | h1
                  · exact isDigit_safe (List.mem_takeWhile_imp h1)
                  · exact hsafe d h1
          · rw [if_neg hd2] at h
            exact Option.noConfusion h
    · rw [if_neg hneg] at h
      by_cases h0 : c = '0'
      · rw [if_pos h0] at h
        obtain ⟨u, hu, hsafe⟩ := numTail_consumed _ _ _ _ h
        refine ⟨c :: u, ?_, ?_⟩
        · rw [List.cons_append, ← hu]
        · intro d hd
          rcases List.mem_cons.mp hd with h1 | h1
          · rw [h1, h0]; exact ⟨by decide, by decide⟩
          · exact hsafe d h1
      · rw [if_neg h0] at h
        by_cases hd2 : c.isDigit = true
        · rw [if_pos hd2] at h
          obtain ⟨u, hu, hsafe⟩ := numTail_consumed _ _ _ _ h
          refine ⟨c :: (r0.takeWhile Char.isDigit ++ u), ?_, ?_⟩
          · rw [List.cons_append, List.append_assoc, ← hu,
              List.takeWhile_append_dropWhile]
          · intro d hd
            rcases List.mem_cons.mp hd with h1 | h1
            · rw [h1]; exact isDigit_safe hd2
            · rcases List.mem_append.mp h1 with h1 | h1
              · exact isDigit_safe (List.mem_takeWhile_imp h1)
              · exact hsafe d h1
        · rw [if_neg hd2] at h
          exact Option.noConfusion h

lemma parseLit_consumed (lit : Str) (v : JsonV) (s : Str) (x : JsonV) (r : Str)
    (h : parseLit lit v s = some (x, r)) : s = lit ++ r := by
  rw [parseLit] at h
  split at h
  next hpre =>
    obtain ⟨_, hr⟩ := Prod.mk.injEq .. ▸ Option.some.inj h
    subst hr
    obtain ⟨t, ht⟩ := List.isPrefixOf_iff_prefix.mp hpre
    rw [← ht, List.drop_left]
  next => exact Option.noConfusion h

/-- The whitespace skipped at any point is a good chunk. -/
lemma skipWs_decomp (s : Str) : s = s.takeWhile isJsonWs ++ skipWs s :=
  (List.takeWhile_append_dropWhile _ _).symm

lemma goodChunk_ws (s : Str) : GoodChunk (s.takeWhile isJsonWs) := by
  refine goodChunk_noBt fun c hc he => ?_
  have h := List.mem_takeWhile_imp hc
  rw [he] at h
  exact absurd h (by decide)

/-! ### Composition steps for consumed text -/

lemma goodChunk_single {c : Char} (h : c ≠ btick) : GoodChunk [c] :=
  goodChunk_noBt (by intro d hd; rw [List.mem_singleton.mp hd]; exact h)

/-- Prepend one non-backtick character to a decomposition. -/
lemma cons_chunk {t r w : Str} {c : Char} (hc : c ≠ btick)
    (h : t = w ++ r) (hg : GoodChunk w) :
    ∃ w2, (c :: t) = w2 ++ r ∧ GoodChunk w2 := by
  refine ⟨c :: w, by rw [h]; rfl, ?_⟩
  have h2 := goodChunk_append (goodChunk_single hc) hg
  simpa using h2

/-- Absorb the whitespace skipped in front of a decomposition. -/
lemma ws_chunk_step {t r w : Str} (h : skipWs t = w ++ r) (hg : GoodChunk w) :
    ∃ w2, t = w2 ++ r ∧ GoodChunk w2 := by
  refine ⟨t.takeWhile isJsonWs ++ w, ?_, goodChunk_append (goodChunk_ws t) hg⟩
  rw [List.append_assoc, ← h]
  exact skipWs_decomp t

/-- Concatenate two consecutive decompositions. -/
lemma chunk_concat {t m r w1 w2 : Str} (h1 : t = w1 ++ m) (h2 : m = w2 ++ r)
    (g1 : GoodChunk w1) (g2 : GoodChunk w2) :
    ∃ w, t = w ++ r ∧ GoodChunk w :=
  ⟨w1 ++ w2, by rw [h1, h2, List.append_assoc], goodChunk_append g1 g2⟩

/-! ### The parser only accepts good text -/

theorem parse_good (fuel : Nat) :
    (∀ s v r, parseVal fuel s = some (v, r) →
      ∃ u, s = u ++ r ∧ GoodChunk u) ∧
    (∀ s acc v r, parseMembers fuel s acc = some (v, r) →
      ∃ u, s = u ++ r ∧ GoodChunk u) ∧
    (∀ s acc v r, parseElems fuel s acc = some (v, r) →
      ∃ u, s = u ++ r ∧ GoodChunk u) := by
  induction fuel with
  | zero =>
    exact ⟨fun s v r h => Option.noConfusion h,
      fun s acc v r h => Option.noConfusion h,
      fun s acc v r h => Option.noConfusion h⟩
  | succ n ih =>
    obtain ⟨ihv, ihm, ihe⟩ := ih
    refine ⟨?_, ?_, ?_⟩
    · -- parseVal
      intro s v r h
      cases s with
      | nil => exact Option.noConfusion h
      | cons c cs =>
        simp only [parseVal] at h
        by_cases h1 : c = '"'
        · rw [if_pos h1] at h
          rcases Option.map_eq_some'.mp h with ⟨p, hp, hpe⟩
          have hr : r = p.2 := by
            have h5 := congrArg Prod.snd hpe
            simpa using h5.symm
          obtain ⟨u, hu, htok⟩ := parseStrBody_consumed n cs p.1 p.2 hp
          refine ⟨c :: u, ?_, ?_⟩
          · rw [hr, List.cons_append, ← hu]
          · rw [h1]; exact goodChunk_strToken htok.1 htok.2
        · rw [if_neg h1] at h
          by_cases h2 : c = '\x7b'
          · rw [if_pos h2] at h
            split at h
            next r2 heq =>
              obtain ⟨hv, hr⟩ := Prod.mk.injEq .. ▸ Option.some.inj h
              subst hr
              have d1 : ∃ w, skipWs cs = w ++ r2 ∧ GoodChunk w := by
                rw [heq]
                exact cons_chunk (by decide) (List.nil_append r2).symm goodChunk_nil
              obtain ⟨w1, hw1, hg1⟩ := d1
              obtain ⟨w2, hw2, hg2⟩ := ws_chunk_step hw1 hg1
              exact cons_chunk (by rw [h2]; decide) hw2 hg2
            next =>
              obtain ⟨u, hu, hg⟩ := ihm (skipWs cs) [] v r h
              obtain ⟨w2, hw2, hg2⟩ := ws_chunk_step hu hg
              exact cons_chunk (by rw [h2]; decide) hw2 hg2
          · rw [if_neg h2] at h
            by_cases h3 : c = '['
            · rw [if_pos h3] at h
              split at h
              next r2 heq =>
                obtain ⟨hv, hr⟩ := Prod.mk.injEq .. ▸ Option.some.inj h
                subst hr
                have d1 : ∃ w, skipWs cs = w ++ r2 ∧ GoodChunk w := by
                  rw [heq]
                  exact cons_chunk (by decide) (List.nil_append r2).symm goodChunk_nil
                obtain ⟨w1, hw1, hg1⟩ := d1
                obtain ⟨w2, hw2, hg2⟩ := ws_chunk_step hw1 hg1
                exact cons_chunk (by rw [h3]; decide) hw2 hg2
              next =>
                obtain ⟨u, hu, hg⟩ := ihe (skipWs cs) [] v r h
                obtain ⟨w2, hw2, hg2⟩ := ws_chunk_step hu hg
                exact cons_chunk (by rw [h3]; decide) hw2 hg2
            · rw [if_neg h3] at h
              by_cases h4 : c = 't'
              · rw [if_pos h4] at h
                exact ⟨("true").data, parseLit_consumed _ _ _ _ _ h,
                  goodChunk_noBt (by decide)⟩
              · rw [if_neg h4] at h
                by_cases h5 : c = 'f'
                · rw [if_pos h5] at h
                  exact ⟨("false").data, parseLit_consumed _ _ _ _ _ h,
                    goodChunk_noBt (by decide)⟩
                · rw [if_neg h5] at h
                  by_cases h6 : c = 'n'
                  · rw [if_pos h6] at h
                    exact ⟨("null").data, parseLit_consumed _ _ _ _ _ h,
                      goodChunk_noBt (by decide)⟩
                  · rw [if_neg h6] at h
                    split at h
                    next lex rest heq =>
                      obtain ⟨hv, hr⟩ := Prod.mk.injEq .. ▸ Option.some.inj h
                      subst hr
                      obtain ⟨u, hu, husafe⟩ := parseNumber_consumed _ _ _ heq
                      exact ⟨u, hu, goodChunk_noBt fun d hd => (husafe d hd).2⟩
                    next => exact Option.noConfusion h
    · -- parseMembers
      intro s acc v r h
      cases s with
      | nil => exact Option.noConfusion h
      | cons c cs =>
        simp only [parseMembers] at h
        split at h
        next =>
          rename_i cs1 heqS
          rw [heqS]
          split at h
          · exact Option.noConfusion h
          next key r1 heq1 =>
            split at h
            next r2 heq2 =>
              split at h
              · exact Option.noConfusion h
              next v0 r3 heq3 =>
                obtain ⟨u1, hu1, htok⟩ := parseStrBody_consumed n cs1 key r1 heq1
                obtain ⟨u4, hu4, hg4⟩ := ihv (skipWs r2) v0 r3 heq3
                split at h
                next r4 heq4 =>
                  obtain ⟨u5, hu5, hg5⟩ := ihm (skipWs r4)
                    (insertField acc key v0) v r h
                  obtain ⟨w7, hw7, hg7⟩ := ws_chunk_step hu5 hg5
                  obtain ⟨w6, hw6, hg6⟩ := cons_chunk
                    (show ',' ≠ btick by decide) hw7 hg7
                  rw [← heq4] at hw6
                  obtain ⟨w5, hw5, hg5b⟩ := ws_chunk_step hw6 hg6
                  obtain ⟨w4, hw4, hg4b⟩ := chunk_concat hu4 hw5 hg4 hg5b
                  obtain ⟨w3, hw3, hg3⟩ := ws_chunk_step hw4 hg4b
                  obtain ⟨w2, hw2, hg2⟩ := cons_chunk
                    (show ':' ≠ btick by decide) hw3 hg3
                  rw [← heq2] at hw2
                  obtain ⟨w1, hw1, hg1⟩ := ws_chunk_step hw2 hg2
                  have hstr : ('"' :: cs1) = ('"' :: u1) ++ r1 := by
                    rw [List.cons_append, ← hu1]
                  exact chunk_concat hstr hw1
                    (goodChunk_strToken htok.1 htok.2) hg1
                next r4 heq4 =>
                  obtain ⟨hv, hr⟩ := Prod.mk.injEq .. ▸ Option.some.inj h
                  subst hr
                  have d1 : ∃ w, skipWs r3 = w ++ r4 ∧ GoodChunk w := by
                    rw [heq4]
                    exact cons_chunk (by decide) (List.nil_append r4).symm
                      goodChunk_nil
                  obtain ⟨w6, hw6, hg6⟩ := d1
                  obtain ⟨w5, hw5, hg5b⟩ := ws_chunk_step hw6 hg6
                  obtain ⟨w4, hw4, hg4b⟩ := chunk_concat hu4 hw5 hg4 hg5b
                  obtain ⟨w3, hw3, hg3⟩ := ws_chunk_step hw4 hg4b
                  obtain ⟨w2, hw2, hg2⟩ := cons_chunk
                    (show ':' ≠ btick by decide) hw3 hg3
                  rw [← heq2] at hw2
                  obtain ⟨w1, hw1, hg1⟩ := ws_chunk_step hw2 hg2
                  have hstr : ('"' :: cs1) = ('"' :: u1) ++ r1 := by
                    rw [List.cons_append, ← hu1]
                  exact chunk_concat hstr hw1
                    (goodChunk_strToken htok.1 htok.2) hg1
                next => exact Option.noConfusion h
            next => exact Option.noConfusion h
        next => exact Option.noConfusion h
    · -- parseElems
      intro s acc v r h
      simp only [parseElems] at h
      split at h
      · exact Option.noConfusion h
      next v0 r1 heq1 =>
        obtain ⟨u1, hu1, hg1⟩ := ihv s v0 r1 heq1
        split at h
        next r2 heq2 =>
          obtain ⟨u3, hu3, hg3⟩ := ihe (skipWs r2) (acc ++ [v0]) v r h
          obtain ⟨w4, hw4, hg4⟩ := ws_chunk_step hu3 hg3
          obtain ⟨w3, hw3, hg3b⟩ := cons_chunk (show ',' ≠ btick by decide)
            hw4 hg4
          rw [← heq2] at hw3
          obtain ⟨w2, hw2, hg2⟩ := ws_chunk_step hw3 hg3b
          exact chunk_concat hu1 hw2 hg1 hg2
        next r2 heq2 =>
          obtain ⟨hv, hr⟩ := Prod.mk.injEq .. ▸ Option.some.inj h
          subst hr
          have d1 : ∃ w, skipWs r1 = w ++ r2 ∧ GoodChunk w := by
            rw [heq2]
            exact cons_chunk (by decide) (List.nil_append r2).symm goodChunk_nil
          obtain ⟨w3, hw3, hg3b⟩ := d1
          obtain ⟨w2, hw2, hg2⟩ := ws_chunk_step hw3 hg3b
          exact chunk_concat hu1 hw2 hg1 hg2
        next => exact Option.noConfusion h

/-- Any text accepted by the whole of `jsonParse` is good. -/
theorem jsonParse_good {t : Str} {v : JsonV} (h : jsonParse t = some v) :
    GoodChunk t := by
  rw [jsonParse] at h
  split at h
  next v0 rest heq =>
    split at h
    next hall =>
      obtain ⟨u, hu, hg⟩ := (parse_good _).1 (skipWs t) v0 rest heq
      have hrest : GoodChunk rest := by
        refine goodChunk_noBt fun c hc he => ?_
        have h2 := List.all_eq_true.mp hall c hc
        rw [he] at h2
        exact absurd h2 (by decide)
      have hdec : t = (t.takeWhile isJsonWs ++ u) ++ rest := by
        rw [List.append_assoc, ← hu]
        exact skipWs_decomp t
      rw [hdec]
      exact goodChunk_append (goodChunk_append (goodChunk_ws t) hg) hrest
    next => exact Option.noConfusion h
  next => exact Option.noConfusion h

/-! ### Good text contains neither delimiter -/

lemma good_no_close {t : Str} (hg : GoodChunk t) :
    ∀ l rr : Str, t ≠ l ++ (closeFence ++ rr) := by
  intro l rr he
  have hc := hg.chain
  rw [he] at hc
  have h2 := (List.chain'_append.mp hc).2.1
  rw [show closeFence ++ rr = '\n' :: btick :: btick :: btick :: rr from rfl]
    at h2
  exact (List.chain'_cons.mp h2).1 ⟨rfl, rfl⟩

lemma good_no_jsonOpen {t : Str} (hg : GoodChunk t) :
    ∀ l rr : Str, t ≠ l ++ (jsonFenceOpen ++ rr) := by
  intro l rr he
  have hs := hg.safe
  rw [he] at hs
  have h2 := safeBt_suffix hs
  rw [show jsonFenceOpen ++ rr =
    btick :: btick :: btick :: 'j' :: 's' :: 'o' :: 'n' :: '\n' :: rr from rfl]
    at h2
  rw [safeBt, Bool.and_eq_true, if_pos rfl] at h2
  have h3 := h2.1
  have h4 : quoteBeforeNl (btick :: btick :: 'j' :: 's' :: 'o' :: 'n' :: '\n'
      :: rr) = false := rfl
  rw [h4] at h3
  exact Bool.noConfusion h3

lemma good_no_plainOpen {t : Str} (hg : GoodChunk t) :
    ∀ l rr : Str, t ≠ l ++ (plainFenceOpen ++ rr) := by
  intro l rr he
  have hs := hg.safe
  rw [he] at hs
  have h2 := safeBt_suffix hs
  rw [show plainFenceOpen ++ rr = btick :: btick :: btick :: '\n' :: rr
    from rfl] at h2
  rw [safeBt, Bool.and_eq_true, if_pos rfl] at h2
  have h3 := h2.1
  have h4 : quoteBeforeNl (btick :: btick :: '\n' :: rr) = false := rfl
  rw [h4] at h3
  exact Bool.noConfusion h3

/-! ### First-occurrence search -/

lemma findSub_eq_none {pat s : Str}
    (h : ∀ l rr : Str, s ≠ l ++ (pat ++ rr)) : findSub pat s = none := by
  induction s with
  | nil =>
    rw [findSub]
    split
    next hpre =>
      obtain ⟨t2, ht⟩ := List.isPrefixOf_iff_prefix.mp hpre
      exact absurd (show ([] : Str) = [] ++ (pat ++ t2) by
        rw [List.nil_append, ht]) (h [] t2)
    next => rfl
  | cons c rest ihr =>
    rw [findSub]
    split
    next hpre =>
      obtain ⟨t2, ht⟩ := List.isPrefixOf_iff_prefix.mp hpre
      exact absurd (show c :: rest = [] ++ (pat ++ t2) by
        rw [List.nil_append, ht]) (h [] t2)
    next =>
      rw [ihr fun l rr hlr => h (c :: l) rr (by rw [List.cons_append, ← hlr])]
      rfl

lemma findSub_self_prefix (pat rest : Str) (hpat : pat ≠ []) :
    findSub pat (pat ++ rest) = some 0 := by
  cases pat with
  | nil => exact absurd rfl hpat
  | cons p ps =>
    rw [List.cons_append, findSub, if_pos]
    rw [ List.isPrefixOf_iff_prefix]
    exact ⟨rest, by rw [List.cons_append]⟩

lemma close_not_prefix {c1 : Char} {rest : Str}
    (hc : List.Chain' noNlBt (c1 :: rest)) :
    ¬ closeFence <+: ((c1 :: rest) ++ closeFence) := by
  rintro ⟨t2, ht⟩
  rw [show closeFence = '\n' :: btick :: btick :: btick :: ([] : Str)
    from rfl] at ht
  cases rest with
  | nil =>
    simp only [List.cons_append, List.nil_append, List.cons.injEq] at ht
    exact absurd ht.2.1 (by decide)
  | cons c2 rest2 =>
    simp only [List.cons_append, List.nil_append, List.cons.injEq] at ht
    exact (List.chain'_cons.mp hc).1 ⟨ht.1.symm, ht.2.1.symm⟩

lemma findSub_close_append {t : Str} (hc : List.Chain' noNlBt t) :
    findSub closeFence (t ++ closeFence) = some t.length := by
  induction t with
  | nil => decide
  | cons c1 rest ih =>
    rw [List.cons_append, findSub, if_neg, ih hc.tail]
    · rfl
    · rw [ List.isPrefixOf_iff_prefix]
      exact close_not_prefix hc

/-! ### The extraction is the identity on good text -/

theorem jsonTextOf_wrap {t : Str} (hg : GoodChunk t) :
    jsonTextOf (wrapJsonFence t) = t := by
  have hw : wrapJsonFence t = jsonFenceOpen ++ (t ++ closeFence) := by
    rw [wrapJsonFence, List.append_assoc]
  have h1 : findSub jsonFenceOpen (wrapJsonFence t) = some 0 := by
    rw [hw]
    exact findSub_self_prefix _ _ (by decide)
  have hd : (wrapJsonFence t).drop jsonFenceOpen.length = t ++ closeFence := by
    rw [hw, List.drop_left]
  simp only [jsonTextOf, fencedInner, fenceMatch, h1, Nat.zero_add, hd,
    findSub_close_append hg.chain, List.take_left, Option.getD_some]

theorem jsonTextOf_id {t : Str} (hg : GoodChunk t) : jsonTextOf t = t := by
  have h1 : findSub jsonFenceOpen t = none :=
    findSub_eq_none (good_no_jsonOpen hg)
  have h2 : findSub plainFenceOpen t = none :=
    findSub_eq_none (good_no_plainOpen hg)
  simp only [jsonTextOf, fencedInner, fenceMatch, h1, h2, Option.getD_none]

theorem c8_witness :
    handler (some exUrl) exShortEnv =
      (⟨500, RespBody.errMsg
         "Article content is too short to generate a meaningful quiz"⟩,
       [NetCall.wikiGet exUrl]) ∧
    (handler (some exUrl) (exEnv 200 [])).2 =
      [NetCall.wikiGet exUrl,
       NetCall.aiPost (mkAiRequest (titleOf exDoc) (articleTextOf exPs))] := by
  refine ⟨(c8_short_body_gate exUrl exShortEnv exParsed
      ⟨none, some [some (List.replicate 100 'a')]⟩ [some (List.replicate 100 'a')]
      (by decide) rfl (by decide) rfl rfl rfl).1 (by decide),
    (c8_short_body_gate exUrl (exEnv 200 []) exParsed exDoc exPs
      (by decide) rfl (by decide) rfl rfl rfl).2 (by decide) rfl⟩

/-! ## Claim C3 -/

/-- Claim C3: response parsing is idempotent over fencing.  For every text
that parses as JSON, parsing the fenced completion yields the same result
as parsing the unfenced text: the fence extraction is the identity on both
forms. -/
theorem c3_fence_idempotent (t : Str) (h : (jsonParse t).isSome = true) :
    jsonParse (jsonTextOf (wrapJsonFence t)) = jsonParse (jsonTextOf t) := by
  obtain ⟨v, hv⟩ := Option.isSome_iff_exists.mp h
  have hg := jsonParse_good hv
  rw [jsonTextOf_wrap hg, jsonTextOf_id hg]

theorem c3_witness :
    jsonParse (jsonTextOf (wrapJsonFence exJson)) =
      jsonParse (jsonTextOf exJson) :=
  c3_fence_idempotent exJson (by decide)

/-! ## Claim C5 -/

/-- Claim C5: when the completion text has no parseable JSON (the fenced
inner text, when a fence is found, does not parse, and the whole text does
not parse either), the handler returns HTTP 500 with the error
"Invalid JSON response from AI". -/
theorem c5_unparsable_response (url : Str) (env : Env) (p : ParsedURL)
    (doc : Doc) (ps : List (Option Str))
    (h1 : url ≠ []) (h2 : env.urlParse = some p) (h3 : validWikiUrl p = true)
    (h4 : env.wikiOk = true) (h5 : env.domDoc = some doc)
    (h6 : doc.contentDiv = some ps)
    (h7 : 500 ≤ (articleTextOf ps).length) (h8 : env.hasApiKey = true)
    (hok : respOk env.aiStatus = true)
    (hf : ∀ cap, fencedInner env.aiContent = some cap → jsonParse cap = none)
    (hw : jsonParse env.aiContent = none) :
    (handler (some url) env).1 =
      ⟨500, RespBody.errMsg "Invalid JSON response from AI"⟩ := by
  rw [handler_reach url env p doc ps h1 h2 h3 h4 h5 h6 h7 h8]
  have hparse : jsonParse (jsonTextOf env.aiContent) = none := by
    rw [jsonTextOf]
    cases hfi : fencedInner env.aiContent with
    | none => simpa using hw
    | some cap => simpa using hf cap hfi
  simp [aiRespOf, hok, hparse]

theorem c5_witness :
    (handler (some exUrl) (exEnv 200 (("this is not json").data))).1 =
      ⟨500, RespBody.errMsg "Invalid JSON response from AI"⟩ := by
  refine c5_unparsable_response exUrl (exEnv 200 (("this is not json").data))
    exParsed exDoc exPs (by decide) rfl (by decide) rfl rfl rfl (by decide)
    rfl rfl ?_ rfl
  intro cap hcap
  have hnone :
      fencedInner (exEnv 200 (("this is not json").data)).aiContent = none :=
    rfl
  rw [hnone] at hcap
  exact Option.noConfusion hcap

/-! ## Claim C9 -/

/-- Property write of a fresh or existing key. -/
lemma getField_insert_same (fs : List (Str × JsonV)) (k : Str) (v : JsonV) :
    getField (insertField fs k v) k = some v := by
  induction fs with
  | nil => simp [insertField, getField]
  | cons kv rest ih =>
    obtain ⟨k0, v0⟩ := kv
    by_cases h : k0 = k
    · simp [insertField, getField, h]
    · simp [insertField, getField, h, ih]

/-- Property write does not disturb any other key. -/
lemma getField_insert_other (fs : List (Str × JsonV)) (k : Str) (v : JsonV)
    (k2 : Str) (h : k2 ≠ k) :
    getField (insertField fs k v) k2 = getField fs k2 := by
  induction fs with
  | nil =>
    simp only [insertField, getField]
    rw [if_neg fun he => h he.symm]
  | cons kv rest ih =>
    obtain ⟨k0, v0⟩ := kv
    by_cases h0 : k0 = k
    · have hk02 : k0 ≠ k2 := fun he => h (he ▸ h0)
      simp only [insertField, if_pos h0, getField, if_neg hk02]
    · by_cases hk02 : k0 = k2
      · simp only [insertField, if_neg h0, getField, if_pos hk02]
      · simp only [insertField, if_neg h0, getField, if_neg hk02, ih]

/-- Claim C9: on the success path the handler returns HTTP 200 whose body
is exactly the parsed object with its `wikipedia_url` property set to the
input URL; reading any other property of the payload gives exactly what the
parsed object held. -/
theorem c9_url_attached (url : Str) (env : Env) (p : ParsedURL)
    (doc : Doc) (ps : List (Option Str)) (fs : List (Str × JsonV))
    (h1 : url ≠ []) (h2 : env.urlParse = some p) (h3 : validWikiUrl p = true)
    (h4 : env.wikiOk = true) (h5 : env.domDoc = some doc)
    (h6 : doc.contentDiv = some ps)
    (h7 : 500 ≤ (articleTextOf ps).length) (h8 : env.hasApiKey = true)
    (hok : respOk env.aiStatus = true)
    (hp : jsonParse (jsonTextOf env.aiContent) = some (JsonV.jobj fs)) :
    (handler (some url) env).1 =
      ⟨200, RespBody.json
        (JsonV.jobj (insertField fs wkey (JsonV.jstr url)))⟩ ∧
    getField (insertField fs wkey (JsonV.jstr url)) wkey =
      some (JsonV.jstr url) ∧
    ∀ k, k ≠ wkey →
      getField (insertField fs wkey (JsonV.jstr url)) k = getField fs k := by
  refine ⟨?_, getField_insert_same fs wkey (JsonV.jstr url),
    fun k hk => getField_insert_other fs wkey (JsonV.jstr url) k hk⟩
  rw [handler_reach url env p doc ps h1 h2 h3 h4 h5 h6 h7 h8]
  simp [aiRespOf, hok, hp, attachUrl, wkey]

theorem c9_witness :
    (handler (some exUrl) (exEnv 200 exQuizContent)).1 =
      ⟨200, RespBody.json (JsonV.jobj
        (insertField exQuizFields wkey (JsonV.jstr exUrl)))⟩ ∧
    getField (insertField exQuizFields wkey (JsonV.jstr exUrl)) wkey =
      some (JsonV.jstr exUrl) ∧
    ∀ k, k ≠ wkey →
      getField (insertField exQuizFields wkey (JsonV.jstr exUrl)) k =
        getField exQuizFields k :=
  c9_url_attached exUrl (exEnv 200 exQuizContent) exParsed exDoc exPs
    exQuizFields (by decide) rfl (by decide) rfl rfl rfl (by decide) rfl rfl
    (by rfl)

/-! ## Claim C2 -/

/-- Claim C2 is refuted by the code: the pipeline performs no validation of
the parsed completion, so a completion whose quiz entry answers "E" is
returned unchanged with HTTP 200, violating the claimed invariant. -/
theorem c2_counterexample :
    (handler (some exUrl) exBadAnswerEnv).1.status = 200 ∧
    (handler (some exUrl) exBadAnswerEnv).1.body =
      RespBody.json (JsonV.jobj
        [(("quiz").data,
          JsonV.jarr [JsonV.jobj [(("answer").data, JsonV.jstr (("E").data))]]),
         (wkey, JsonV.jstr exUrl)]) ∧
    answerOk (JsonV.jobj [(("answer").data, JsonV.jstr (("E").data))]) =
      false :=
  ⟨rfl, rfl, rfl⟩

/-- Claim C2, amended: the handler performs no validation of the quiz
entries; on the success path the `quiz` property of the returned payload is
exactly the `quiz` property of the parsed completion, whatever its answer
fields hold. -/
theorem c2_amended_no_validation (url : Str) (env : Env) (p : ParsedURL)
    (doc : Doc) (ps : List (Option Str)) (fs : List (Str × JsonV))
    (h1 : url ≠ []) (h2 : env.urlParse = some p) (h3 : validWikiUrl p = true)
    (h4 : env.wikiOk = true) (h5 : env.domDoc = some doc)
    (h6 : doc.contentDiv = some ps)
    (h7 : 500 ≤ (articleTextOf ps).length) (h8 : env.hasApiKey = true)
    (hok : respOk env.aiStatus = true)
    (hp : jsonParse (jsonTextOf env.aiContent) = some (JsonV.jobj fs)) :
    (handler (some url) env).1.status = 200 ∧
    (handler (some url) env).1.body =
      RespBody.json (JsonV.jobj (insertField fs wkey (JsonV.jstr url))) ∧
    getField (insertField fs wkey (JsonV.jstr url)) (("quiz").data) =
      getField fs (("quiz").data) := by
  have hmain : (handler (some url) env).1 =
      ⟨200, RespBody.json
        (JsonV.jobj (insertField fs wkey (JsonV.jstr url)))⟩ := by
    rw [handler_reach url env p doc ps h1 h2 h3 h4 h5 h6 h7 h8]
    simp [aiRespOf, hok, hp, attachUrl, wkey]
  refine ⟨by rw [hmain], by rw [hmain], ?_⟩
  exact getField_insert_other fs wkey (JsonV.jstr url) (("quiz").data)
    (by decide)

theorem c2_amended_witness :
    (handler (some exUrl) exNormalQuizEnv).1.status = 200 ∧
    (handler (some exUrl) exNormalQuizEnv).1.body =
      RespBody.json (JsonV.jobj (insertField
        [(("quiz").data,
          JsonV.jarr [JsonV.jobj [(("answer").data, JsonV.jstr (("E").data))]])]
        wkey (JsonV.jstr exUrl))) ∧
    getField (insertField
        [(("quiz").data,
          JsonV.jarr [JsonV.jobj [(("answer").data, JsonV.jstr (("E").data))]])]
        wkey (JsonV.jstr exUrl)) (("quiz").data) =
      getField
        [(("quiz").data,
          JsonV.jarr [JsonV.jobj [(("answer").data, JsonV.jstr (("E").data))]])]
        (("quiz").data) :=
  c2_amended_no_validation exUrl exNormalQuizEnv exParsed exDoc exPs
    [(("quiz").data,
      JsonV.jarr [JsonV.jobj [(("answer").data, JsonV.jstr (("E").data))]])]
    (by decide) rfl (by decide) rfl rfl rfl (by decide) rfl rfl (by rfl)

end WikiQuiz